import Mathlib

/-
  Verification development for the siclang interpreter (interpreter.cpp /
  interpreter.hpp).  The C++ value model

      using Element = std::variant<wchar_t, double, String, Array>;
      struct Array : std::vector<Element> {};
      using Stack = std::stack<Array>;

  is embedded below.  Numbers (C++ `double`) are modelled as rationals: every
  concrete input appearing in the theorems uses small integers, on which IEEE
  double arithmetic is exact, and the elementwise operator is carried as an
  abstract function wherever the source receives it as a std::function.
  `wchar_t` is modelled as Char and `std::wstring` as String.

  Uncaught C++ exceptions (std::bad_variant_access raised by std::get on a
  wrong alternative: there is no try/catch around Interpreter::process, so
  such a throw terminates the process) are modelled by an explicit `crash`
  outcome.  Out-of-bounds vector indexing (undefined behaviour) is mapped to
  the same `crash` outcome; no settled claim depends on an out-of-bounds path.
  Diagnostic lines written to std::wcerr are collected in a `List String` in
  program order.  Output of `printArray` on the results stream (std::wcout)
  is outside every claim and is not modelled.
-/

namespace Sic

/-- The tagged value type of interpreter.cpp: wchar_t, double, wstring or Array. -/
inductive Element : Type where
  | ch   : Char → Element
  | num  : ℚ → Element
  | text : String → Element
  | arr  : List Element → Element

/-- `struct Array : std::vector<Element>`. -/
abbrev Arr : Type := List Element

mutual

/-- Structural size of an Element; used only as recursion fuel. -/
def esize : Element → Nat
  | Element.arr l => 1 + lsize l
  | _ => 1

/-- Structural size of an element list; strictly exceeds its nesting depth. -/
def lsize : List Element → Nat
  | [] => 1
  | e :: r => esize e + lsize r

end

/-- Diagnostic texts written by interpreter.cpp to std::wcerr. -/
def errInsufficient (opName : String) : String :=
  "Error: Insufficient stack elements for " ++ opName

def errNumeric (opName : String) : String :=
  "Error: " ++ opName ++ " requires numeric arguments"

def errDivZero : String := "Error: Division by zero"

def errShapeMismatch (opName : String) : String :=
  "Error: " ++ opName ++ " requires a scalar or arrays of equal shape"

def errStackEmpty (opName : String) : String :=
  "Error: Stack empty for " ++ opName

/-- The uniformity scan shared by `getShape` and the `dim` built-in: after the
first element of a level turned out to be an Array of size `fstLen`, every
remaining element of that level must be an Array of the same size. -/
def uniformRow (fstLen : Nat) : List Element → Bool
  | [] => true
  | Element.arr s :: rest => if s.length = fstLen then uniformRow fstLen rest else false
  | _ :: _ => false

/-- `Interpreter::getShape`, fuelled.  The C++ recursion descends into the
first child; the fuel argument (instantiated with `lsize`, which strictly
exceeds the nesting depth) keeps the recursion structural, so the `0` case is
never reached on the instantiation used by `getShape`. -/
def getShapeF : Nat → List Element → List Nat
  | 0, a => [a.length]
  | Nat.succ f, Element.arr first :: rest =>
      if uniformRow first.length rest then (rest.length + 1) :: getShapeF f first
      else [rest.length + 1]
  | Nat.succ _, a => [a.length]

/-- `Interpreter::getShape(arr, shape)` with `shape` empty at the call sites. -/
def getShape (a : Arr) : List Nat := getShapeF (lsize a) a

/-- The scalar test of `Interpreter::applyBinaryOp`:
`a.size() == 1 && !holds_alternative<Array>(a[0]) && holds_alternative<double>(a[0])`. -/
def isScalar (a : Arr) : Bool :=
  match a with
  | [Element.num _] => true
  | _ => false

/-- `Element xElem = x.size() == 1 ? x[0] : x[i]` in the leaf case of
`applyOpRecursive`; `none` is the out-of-bounds (undefined behaviour) case. -/
def elemAt (x : Arr) (i : Nat) : Option Element :=
  if x.length = 1 then x[0]? else x[i]?

/-- `x.size() == 1 && holds_alternative<Array>(x[0]) ? get<Array>(x[0])
: get<Array>(x[i])` in the nested case of `applyOpRecursive`; `none` covers
both the throwing `std::get` on a non-Array and an out-of-bounds `x[i]`. -/
def subSel (x : Arr) (i : Nat) : Option Arr :=
  match x with
  | [Element.arr s] => some s
  | _ =>
    match x[i]? with
    | some (Element.arr s) => some s
    | _ => none

/-- Outcome of a lambda of the array engine: a returned Array plus the wcerr
lines emitted so far, or a crash (uncaught exception / UB) with the lines
emitted before it. -/
inductive RRes : Type where
  | ok    : Arr → List String → RRes
  | crash : List String → RRes

/-- The `shape.size() == 1` leaf loop of `applyOpRecursive`: apply `op`
elementwise over the index list, aborting with one diagnostic and an empty
result Array at the first non-Number leaf pair or zero right-hand leaf of `/`. -/
def leafGo (opName : String) (op : ℚ → ℚ → ℚ) (x y : Arr) :
    List Nat → List ℚ → List String → RRes
  | [], acc, out => .ok (acc.reverse.map Element.num) out
  | i :: is, acc, out =>
    match elemAt x i, elemAt y i with
    | some (Element.num xv), some (Element.num yv) =>
      if opName = "/" ∧ yv = 0 then .ok [] (out ++ [errDivZero])
      else leafGo opName op x y is (op xv yv :: acc) out
    | some _, some _ => .ok [] (out ++ [errNumeric opName])
    | _, _ => .crash out

/-- The nested-level loop of `applyOpRecursive`: descend into the sub-arrays
selected by `subSel` and run the recursion `f` on the tail shape; an empty
sub-result (the C++ error convention, also produced by a genuinely empty
level) makes the whole level return an empty Array. -/
def nestedGo (f : Arr → Arr → List String → RRes) (x y : Arr) :
    List Nat → List Arr → List String → RRes
  | [], acc, out => .ok (acc.reverse.map Element.arr) out
  | i :: is, acc, out =>
    match subSel x i, subSel y i with
    | some xs, some ys =>
      match f xs ys out with
      | .crash o => .crash o
      | .ok [] o => .ok [] o
      | .ok sub o => nestedGo f x y is (sub :: acc) o
    | _, _ => .crash out

/-- The recursive lambda `applyOpRecursive` of `Interpreter::applyBinaryOp`.
An empty shape vector would read `shape[0]` out of bounds in C++ (undefined
behaviour); it is unreachable because `getShape` always yields a non-empty
vector. -/
def applyOpRecursive (opName : String) (op : ℚ → ℚ → ℚ) :
    List Nat → Arr → Arr → List String → RRes
  | [], _, _, out => .crash out
  | [n], x, y, out => leafGo opName op x y (List.range n) [] out
  | n :: d :: rest, x, y, out =>
      nestedGo (applyOpRecursive opName op (d :: rest)) x y (List.range n) [] out

/-- The dispatch if-chain of `Interpreter::applyBinaryOp`: the shape the
elementwise recursion is run with, or `none` for the shape-mismatch error. -/
def broadcastShape (a b : Arr) : Option (List Nat) :=
  if isScalar a && !isScalar b then some (getShape b)
  else if isScalar b && !isScalar a then some (getShape a)
  else if getShape a = getShape b then some (getShape a)
  else none

/-- Outcome of a built-in on the data stack (top of stack = list head):
the new stack plus the wcerr lines, or a process-terminating crash. -/
inductive SRes : Type where
  | ok    : List Arr → List String → SRes
  | crash : List String → SRes

/-- `Interpreter::applyBinaryOp`: pop b (top) then a, dispatch on scalarness
and shapes, and push the result Array unless it is empty. -/
def applyBinaryOp (opName : String) (op : ℚ → ℚ → ℚ) (s : List Arr) : SRes :=
  match s with
  | b :: a :: rest =>
    match broadcastShape a b with
    | some shape =>
      match applyOpRecursive opName op shape a b [] with
      | .crash out => .crash out
      | .ok [] out => .ok rest out
      | .ok result out => .ok (result :: rest) out
    | none => .ok rest [errShapeMismatch opName]
  | _ => .ok s [errInsufficient opName]

/-- Remaining diagnostic texts of `Interpreter::initBuiltIns`. -/
def errRangeScalar : String := "Error: range requires a scalar numeric argument"

def errRangeNonNeg : String := "Error: range requires a non-negative integer"

def errReshapeNonEmpty : String := "Error: reshape requires a non-empty shape array"

def errReshapeNumeric : String := "Error: reshape shape must contain numeric values"

def errReshapePosInt : String := "Error: reshape dimensions must be positive integers"

def errReshapeDataSize : String := "Error: Data size does not match shape dimensions"

def errNonUniformDim : String := "Error: Non-uniform array for dim"

def errMatmul2D : String := "Error: matmul requires 2D arrays"

def errMatmulIncompat : String := "Error: Incompatible dimensions for matmul"

def errMatmul2DNum : String := "Error: matmul requires 2D numeric arrays"

def errMatmulNum : String := "Error: matmul requires numeric elements"

/-- The `cat` built-in: pop b then a, push a's elements followed by b's. -/
def catB (s : List Arr) : SRes :=
  match s with
  | b :: a :: rest => .ok ((a ++ b) :: rest) []
  | _ => .ok s [errInsufficient "cat"]

/-- The `.` built-in: pop and pretty-print the top (the printed rendering on
the results stream is outside every claim and not modelled). -/
def dotB (s : List Arr) : SRes :=
  match s with
  | _ :: rest => .ok rest []
  | [] => .ok [] [errStackEmpty "."]

/-- The `clear` built-in: drain the stack. -/
def clearB (_ : List Arr) : SRes := .ok [] []

/-- The `swap` built-in: exchange the top two stack items. -/
def swapB (s : List Arr) : SRes :=
  match s with
  | top :: second :: rest => .ok (second :: top :: rest) []
  | _ => .ok s [errInsufficient "swap"]

/-- The `dup` built-in: push a copy of the top without popping it. -/
def dupB (s : List Arr) : SRes :=
  match s with
  | top :: rest => .ok (top :: top :: rest) []
  | [] => .ok [] [errStackEmpty "dup"]

/-- The `range` built-in.  `static_cast<int>(val)` is modelled exactly by
`v.num.toNat` (for a non-negative integral double); a value at or above 2^31
would be UB in C++, and every theorem instance stays far below that. -/
def rangeB (s : List Arr) : SRes :=
  match s with
  | [] => .ok [] [errStackEmpty "range"]
  | top :: rest =>
    match top with
    | [Element.num v] =>
      if v < 0 ∨ ¬ v.den = 1 then .ok rest [errRangeNonNeg]
      else .ok (((List.range v.num.toNat).map fun i => Element.num (i : ℚ)) :: rest) []
    | _ => .ok rest [errRangeScalar]

/-- The shape-validation loop of the `reshape` built-in: the collected `dims`
or the first diagnostic.  `static_cast<size_t>(val)` on the already validated
positive integral value is `v.num.toNat`. -/
def parseDims : List Element → Except String (List Nat)
  | [] => .ok []
  | Element.num v :: rest =>
    if 0 < v ∧ v.den = 1 then
      match parseDims rest with
      | .ok ds => .ok (v.num.toNat :: ds)
      | .error e => .error e
    else .error errReshapePosInt
  | _ :: _ => .error errReshapeNumeric

/-- `total_size` of the `reshape` built-in: a running `size_t` product,
wrapping modulo 2^64. -/
def totalSize (dims : List Nat) : Nat :=
  dims.foldl (fun t d => t * d % 18446744073709551616) 1

/-- The innermost loop of `buildArray` in `reshape`: take `d` elements of
`data` starting at `idx`; the C++ `if (dataIdx < data.size())` guard
silently skips (and does not advance) once past the end. -/
def leafBuild (data : Arr) : Nat → Nat → (List Element × Nat)
  | 0, idx => ([], idx)
  | Nat.succ k, idx =>
    match data[idx]? with
    | some e =>
      match leafBuild data k (idx + 1) with
      | (res, idx') => (e :: res, idx')
    | none => leafBuild data k idx

/-- The outer loop of `buildArray`: build `k` sub-arrays with the recursion
`f`, threading the data index. -/
def buildIter (f : Nat → (Arr × Nat)) : Nat → Nat → (List Element × Nat)
  | 0, idx => ([], idx)
  | Nat.succ k, idx =>
    match f idx with
    | (sub, idx') =>
      match buildIter f k idx' with
      | (subs, idx'') => (Element.arr sub :: subs, idx'')

/-- The recursive lambda `buildArray` of the `reshape` built-in.  An empty
`dims` vector is unreachable (the shape array was validated non-empty); in
C++ it would loop over `dims[0]` read out of bounds. -/
def buildArr (data : Arr) : List Nat → Nat → (Arr × Nat)
  | [], idx => ([], idx)
  | [d], idx => leafBuild data d idx
  | d :: d2 :: rest, idx => buildIter (buildArr data (d2 :: rest)) d idx

/-- The `reshape` built-in: pop shape (top) then data, validate, build. -/
def reshapeB (s : List Arr) : SRes :=
  match s with
  | shape :: data :: rest =>
    if shape.isEmpty then .ok rest [errReshapeNonEmpty]
    else
      match parseDims shape with
      | .error e => .ok rest [e]
      | .ok dims =>
        if data.length = totalSize dims then
          .ok ((buildArr data dims 0).1 :: rest) []
        else .ok rest [errReshapeDataSize]
  | _ => .ok s [errInsufficient "reshape"]

/-- The recursive lambda `getDims` of the `dim` built-in, fuelled like
`getShapeF` (the fuel strictly exceeds the nesting depth, so the `0` case is
unreachable on the instantiation used by `dimB`).  Returns the collected
dims and whether the non-uniformity error path was taken.  A level whose
first element is a non-Array returns early without examining the rest. -/
def getDimsF : Nat → List Element → List Nat → (List Nat × Bool)
  | 0, _, dims => (dims, false)
  | Nat.succ _, [], dims => (dims ++ [0], false)
  | Nat.succ f, Element.arr first :: rest, dims =>
    if uniformRow first.length rest then getDimsF f first (dims ++ [rest.length + 1])
    else (dims ++ [rest.length + 1], true)
  | Nat.succ _, _ :: rest, dims => (dims ++ [rest.length + 1], false)

/-- The non-scalar path of the `dim` built-in.  On the error path `getDims`
pushed the still-empty `result` from inside the lambda; afterwards the
built-in converts the collected dims into `result` and pushes it as well —
the guard `dims.empty() && !result.empty()` can never hold (`result` is
still empty when it is evaluated, and `dims` is never empty), so it never
suppresses that second push. -/
def goDim (arrv : Arr) (rest : List Arr) : SRes :=
  match getDimsF (lsize arrv) arrv [] with
  | (ds, false) => .ok ((ds.map fun d => Element.num (d : ℚ)) :: rest) []
  | (ds, true) => .ok ((ds.map fun d => Element.num (d : ℚ)) :: ([] : Arr) :: rest) [errNonUniformDim]

/-- The `dim` built-in: a single-element non-Array top is a scalar and
yields an empty Array. -/
def dimB (s : List Arr) : SRes :=
  match s with
  | [] => .ok [] [errStackEmpty "dim"]
  | arrv :: rest =>
    match arrv with
    | [Element.arr a] => goDim [Element.arr a] rest
    | [_] => .ok (([] : Arr) :: rest) []
    | _ => goDim arrv rest

/-- Numeric-leaf test used by the matmul validation loops. -/
def isNumE : Element → Bool
  | Element.num _ => true
  | _ => false

/-- One matmul validation loop: every row must be an Array of numeric
elements; the first offending row or element yields its diagnostic. -/
def rowCheck : Arr → Option String
  | [] => none
  | Element.arr row :: rs => if row.all isNumE then rowCheck rs else some errMatmulNum
  | _ :: _ => some errMatmul2DNum

/-- `std::get<double>(std::get<Array>(a[i])[k])` inside the matmul triple
loop.  The preceding rank-2 shape check and validation loops guarantee the
access is in bounds and numeric, so the default 0 is never observed. -/
def matGet (a : Arr) (i k : Nat) : ℚ :=
  match a[i]? with
  | some (Element.arr row) =>
    match row[k]? with
    | some (Element.num q) => q
    | _ => 0
  | _ => 0

/-- The innermost accumulation `sum += a_val * b_val` of matmul. -/
def dotProd (a b : Arr) (n i j : Nat) : ℚ :=
  (List.range n).foldl (fun acc k => acc + matGet a i k * matGet b k j) 0

/-- The m×p result grid of the matmul triple loop. -/
def mmResult (a b : Arr) (m n p : Nat) : Arr :=
  (List.range m).map fun i =>
    Element.arr ((List.range p).map fun j => Element.num (dotProd a b n i j))

/-- The `matmul` built-in: pop b (top) then a, require rank-2 shapes with
matching inner dimension and numeric leaves, push the m×p product. -/
def matmulB (s : List Arr) : SRes :=
  match s with
  | b :: a :: rest =>
    match getShape a, getShape b with
    | [m, n], [nb, p] =>
      if n = nb then
        match rowCheck a with
        | some msg => .ok rest [msg]
        | none =>
          match rowCheck b with
          | some msg => .ok rest [msg]
          | none => .ok (mmResult a b m n p :: rest) []
      else .ok rest [errMatmulIncompat]
    | _, _ => .ok rest [errMatmul2D]
  | _ => .ok s [errInsufficient "matmul"]

/-- The `^` leaf operator.  std::pow on doubles takes real values that ℚ
cannot represent for non-integral exponents; no settled claim depends on a
leaf value computed by `^`, so integral exponents are modelled exactly and
other exponents map to 0. -/
def powQ (x y : ℚ) : ℚ := if y.den = 1 then x ^ y.num else 0

/-- The names registered by `Interpreter::initBuiltIns`. -/
def builtinNames : List String :=
  ["+", "-", "*", "/", "^", "cat", ".", "clear", "swap", "dup",
   "range", "reshape", "dim", "matmul"]

/-- Dispatch of `builtIns[token](stack)` over the registered handlers. -/
def applyBuiltIn (t : String) (s : List Arr) : SRes :=
  if t = "+" then applyBinaryOp "+" (fun x y => x + y) s
  else if t = "-" then applyBinaryOp "-" (fun x y => x - y) s
  else if t = "*" then applyBinaryOp "*" (fun x y => x * y) s
  else if t = "/" then applyBinaryOp "/" (fun x y => x / y) s
  else if t = "^" then applyBinaryOp "^" powQ s
  else if t = "cat" then catB s
  else if t = "." then dotB s
  else if t = "clear" then clearB s
  else if t = "swap" then swapB s
  else if t = "dup" then dupB s
  else if t = "range" then rangeB s
  else if t = "reshape" then reshapeB s
  else if t = "dim" then dimB s
  else if t = "matmul" then matmulB s
  else .ok s []

/-- Space / tab test used by the trimming in `parseArrayTokens`. -/
def wsST (c : Char) : Bool := c = ' ' ∨ c = '\t'

/-- Numeric value of a decimal digit character. -/
def digitVal (c : Char) : Nat := c.toNat - 48

/-- Value of a run of decimal digits. -/
def digitsToNat (ds : List Char) : Nat := ds.foldl (fun a c => a * 10 + digitVal c) 0

/-- Model of `std::stod` on the decimal fragment: optional leading
whitespace, optional sign, digits with an optional fractional part; like
stod it parses the longest valid prefix and ignores trailing characters,
and fails (throws, i.e. `none`) when no digit is found.  Exponent, hex,
inf/nan forms are outside the modelled fragment and outside every token a
theorem of this file touches. -/
def stodQ (s : String) : Option ℚ :=
  let cs := s.data.dropWhile fun c => c = ' ' ∨ c = '\t' ∨ c = '\n' ∨ c = '\r'
  let signed : Bool × List Char :=
    match cs with
    | '-' :: r => (true, r)
    | '+' :: r => (false, r)
    | r => (false, r)
  let ip := signed.2.takeWhile Char.isDigit
  let r1 := signed.2.dropWhile Char.isDigit
  let mag : Option ℚ :=
    match r1 with
    | '.' :: r2 =>
      let fp := r2.takeWhile Char.isDigit
      if ip.isEmpty ∧ fp.isEmpty then none
      else some ((digitsToNat ip : ℚ) + (digitsToNat fp : ℚ) / ((10 : ℚ) ^ fp.length))
    | _ => if ip.isEmpty then none else some ((digitsToNat ip : ℚ))
  match mag with
  | none => none
  | some v => some (if signed.1 then -v else v)

/-- `Interpreter::isNumber`: whether `std::stod` accepts the token. -/
def isNumber (token : String) : Bool := (stodQ token).isSome

/-- `Interpreter::isWChar`. -/
def isWChar (token : String) : Bool := token.length == 1 && !isNumber token

/-- `Interpreter::isStringLiteral`. -/
def isStringLiteral (token : String) : Bool :=
  decide (2 ≤ token.length) && (token.front == '"') && (token.back == '"')

/-- `Interpreter::isArrayLiteral`. -/
def isArrayLiteral (token : String) : Bool :=
  decide (2 ≤ token.length) && (token.front == '[') && (token.back == ']')

/-- `Interpreter::isFunctionName`; `std::iswalnum` is modelled on the ASCII
range by `Char.isAlphanum`, and every name in the theorems is ASCII. -/
def isFunctionName (token : String) : Bool :=
  if token = "" ∨ token = ":end" ∨ token = ":dump" then false
  else token.data.all fun c => c.isAlphanum || c == '_' || decide (127 < c.toNat)

/-- Trim leading and trailing spaces / tabs (the two `erase` calls of
`parseArrayTokens`). -/
def trimST (cs : List Char) : List Char :=
  ((cs.dropWhile wsST).reverse.dropWhile wsST).reverse

/-- The scanning loop of `Interpreter::parseArrayTokens` over the interior
characters, carrying the previous character (for the `\"` escape test),
bracket depth, quote state, the current reversed token and the reversed
accumulator. -/
def patLoop : List Char → Char → Int → Bool → List Char → List String → List String
  | [], _, _, _, current, acc =>
    (match trimST current.reverse with
     | [] => acc
     | t => String.mk t :: acc).reverse
  | c :: rest, prev, depth, inQuotes, current, acc =>
    if c = '"' ∧ prev ≠ '\\' then patLoop rest c depth (!inQuotes) (c :: current) acc
    else if inQuotes then patLoop rest c depth inQuotes (c :: current) acc
    else if c = '[' then patLoop rest c (depth + 1) inQuotes (c :: current) acc
    else if c = ']' then patLoop rest c (depth - 1) inQuotes (c :: current) acc
    else if c = ',' ∧ depth = 0 then
      patLoop rest c depth inQuotes []
        (match trimST current.reverse with
         | [] => acc
         | t => String.mk t :: acc)
    else patLoop rest c depth inQuotes (c :: current) acc

/-- `Interpreter::parseArrayTokens`: scan the characters between the outer
brackets (only reached on tokens of length ≥ 2, by `isArrayLiteral`). -/
def parseArrayTokens (input : String) : List String :=
  match input.data with
  | c0 :: rest => patLoop rest.dropLast c0 0 false [] []
  | [] => []

mutual

/-- `Interpreter::parseElement`, fuelled: each nesting level strips the
surrounding brackets, so any fuel above the token length is enough and the
`0` case is never reached on the instantiation used by `parseArray`. -/
def parseElementF : Nat → String → Element
  | 0, token => Element.text token
  | Nat.succ f, token =>
    if isNumber token then Element.num ((stodQ token).getD 0)
    else if isStringLiteral token then Element.text ((token.drop 1).dropRight 1)
    else if isWChar token then Element.ch token.front
    else if isArrayLiteral token then Element.arr (parseArrayF f token)
    else Element.text token

/-- `Interpreter::parseArray`, fuelled. -/
def parseArrayF : Nat → String → Arr
  | 0, _ => []
  | Nat.succ f, token =>
    if isArrayLiteral token then (parseArrayTokens token).map (parseElementF f)
    else [parseElementF f token]

end

/-- `Interpreter::parseArray`. -/
def parseArray (token : String) : Arr := parseArrayF (token.length + 1) token

/-- The persistent interpreter state seen by `Interpreter::evaluate`: the
data stack, the function dictionary and the diagnostics emitted so far.
`std::map` with `operator[]` assignment is modelled as an association list
updated by prepending, looked up first-match — observationally the same
mapping with last definition winning. -/
structure EState where
  stack : List Arr
  funcs : List (String × List String)
  errs  : List String

/-- Outcome of an evaluation: final state, a crash (uncaught exception
from a built-in), or fuel exhaustion (the C++ recursion is unbounded; fuel
is a model artifact and every theorem supplies enough of it). -/
inductive ERes : Type where
  | ok      : EState → ERes
  | crash   : EState → ERes
  | fuelOut : ERes

/-- `functions.find(token)` on the association-list model. -/
def lookupFn : List (String × List String) → String → Option (List String)
  | [], _ => none
  | (n, b) :: rest, w => if n = w then some b else lookupFn rest w

def errInvalidDef : String := "Error: Invalid function definition"

/-- The token loop of `Interpreter::evaluate`.  `defining`, `fname` and
`fbody` are the loop-local definition-accumulation state (a still-open
definition at the end of the tokens is discarded, as in the C++ where the
locals go out of scope).  Fuel decreases on every step; the `:dump`
printing and the `.`/`printArray` rendering on the results stream are not
modelled. -/
def evalLoop : Nat → List String → Bool → Bool → String → List String → EState → ERes
  | 0, _, _, _, _, _, _ => .fuelOut
  | Nat.succ _, [], _, _, _, _, st => .ok st
  | Nat.succ f, token :: rest, isFB, defining, fname, fbody, st =>
    if token = ":dump" then evalLoop f rest isFB defining fname fbody st
    else if isFB = false ∧ defining = false ∧ 1 < token.length ∧ token.front = ':' then
      (if rest ≠ [] ∧ isFunctionName (token.drop 1) then
        evalLoop f rest isFB true (token.drop 1) [] st
      else
        evalLoop f rest isFB defining fname fbody
          { st with errs := st.errs ++ [errInvalidDef] })
    else if defining then
      (if token = ":end" then
        evalLoop f rest isFB false fname [] { st with funcs := (fname, fbody) :: st.funcs }
      else
        evalLoop f rest isFB true fname (fbody ++ [token]) st)
    else
      match lookupFn st.funcs token with
      | some body =>
        (match evalLoop f body true false "" [] st with
         | .ok st2 => evalLoop f rest isFB defining fname fbody st2
         | r => r)
      | none =>
        if builtinNames.contains token then
          (match applyBuiltIn token st.stack with
           | .ok s2 es =>
             evalLoop f rest isFB defining fname fbody
               { st with stack := s2, errs := st.errs ++ es }
           | .crash es => .crash { st with errs := st.errs ++ es })
        else
          evalLoop f rest isFB defining fname fbody
            { st with stack := parseArray token :: st.stack }

/-- `Interpreter::evaluate(tokens)` at top level (isFunctionBody = false). -/
def evaluate (fuel : Nat) (tokens : List String) (st : EState) : ERes :=
  evalLoop fuel tokens false false "" [] st

/-! ### Specification-side definitions

`rowMajorIter` / `rowMajorSpec` follow the words of the spec for reshape
("builds nested arrays in row-major order: the last shape dimension is the
innermost (leaf) level, consuming data elements left-to-right depth-first");
they are the comparison point for the refinement claims about reshape, not a
translation of the C++ (`buildArr` above is that translation). -/

/-- Spec-side: build `k` consecutive sub-arrays with `f`, threading the
remaining data. -/
def rowMajorIter (f : List Element → (Arr × List Element)) :
    Nat → List Element → (List Element × List Element)
  | 0, xs => ([], xs)
  | Nat.succ k, xs =>
    match f xs with
    | (sub, xs') =>
      match rowMajorIter f k xs' with
      | (subs, xs'') => (Element.arr sub :: subs, xs'')

/-- Spec-side row-major build: consume the data left-to-right depth-first,
the last dimension innermost; returns the built array and the unconsumed
remainder of the data. -/
def rowMajorSpec : List Nat → List Element → (Arr × List Element)
  | [], xs => ([], xs)
  | [d], xs => (xs.take d, xs.drop d)
  | d :: d2 :: rest, xs => rowMajorIter (rowMajorSpec (d2 :: rest)) d xs

/-- Encoding of a rational matrix row as an interpreter Array element. -/
def encodeRow (r : List ℚ) : Element := Element.arr (r.map Element.num)

/-- Encoding of a rational matrix as an interpreter Array of Arrays. -/
def encodeMat (A : List (List ℚ)) : Arr := A.map encodeRow

/-- Encoding of a dimension list as the flat numeric Array that `reshape`
receives and `dim` is claimed to return. -/
def encodeDims (dims : List Nat) : Arr := dims.map fun d => Element.num (d : ℚ)

/-- The claim's matmul entry formula: sum over k of a[i][k] * b[k][j]. -/
def matEntry (A B : List (List ℚ)) (n i j : Nat) : ℚ :=
  (((List.range n).map fun k => (A.getD i []).getD k 0 * (B.getD k []).getD j 0)).sum

/-- The claim's m×p result grid of matmul entries. -/
def mmSpec (A B : List (List ℚ)) (n p : Nat) : List (List ℚ) :=
  (List.range A.length).map fun i => (List.range p).map fun j => matEntry A B n i j

/-- Exact nested shape: the array realizes the dimension list uniformly,
with non-Array values exactly at the leaf level. -/
def Shaped : List Nat → Arr → Prop
  | [], _ => False
  | [d], a => a.length = d ∧ ∀ e ∈ a, ∀ s, e ≠ Element.arr s
  | d :: d2 :: rest, a =>
    a.length = d ∧ ∀ e ∈ a, ∃ sub, e = Element.arr sub ∧ Shaped (d2 :: rest) sub

/-- The acceptance condition of the matmul built-in, read off its guards:
both operands infer rank-2 shapes with matching inner dimension and both
validation loops pass. -/
def MatmulAccepts (a b : Arr) : Prop :=
  ∃ m n p, getShape a = [m, n] ∧ getShape b = [n, p] ∧
    rowCheck a = none ∧ rowCheck b = none

/-- The claim's well-formedness condition on a reshape shape array: every
element is a positive-integer Number. -/
def GoodShape (shape : Arr) : Prop :=
  ∀ e ∈ shape, ∃ d : Nat, 1 ≤ d ∧ e = Element.num (d : ℚ)

/-! ### Claim theorems -/

/-- Claim C1: the claim states that a scalar broadcast against any array
(including rank ≥ 2 and zero-element operands) pushes exactly one Array of
broadcast values.  The code instead (first conjunct) throws
std::bad_variant_access on `2 [[1 2] [3 4]] +` — `applyOpRecursive` reaches
`std::get<Array>(x[i])` with the scalar's double in `x[0]` — terminating the
process; and (second conjunct) on two equal-shape zero-element operands
`[] [] +` it pushes nothing and prints nothing, because the legitimately
empty result is indistinguishable from the error convention. -/
theorem C1_scalar_broadcast_crashes :
    applyBinaryOp "+" (fun x y => x + y)
      [[Element.arr [Element.num 1, Element.num 2],
        Element.arr [Element.num 3, Element.num 4]], [Element.num 2]] = SRes.crash []
    ∧ applyBinaryOp "+" (fun x y => x + y) [([] : Arr), ([] : Arr)] = SRes.ok [] [] :=
  ⟨rfl, rfl⟩

/-- Claim C5: the claim states that on non-uniform nesting `dim` prints one
diagnostic and pushes nothing.  On `[[1 2] [3]] dim` the code does print one
line but pushes twice (first conjunct): the empty `result` from inside the
`getDims` lambda, then the partial dims Array `[2]` — the guard
`dims.empty() && !result.empty()` that was meant to stop the second push can
never hold.  The second conjunct shows the claim's "whenever" is also too
strong: on the inconsistently nested `[1 [2]]` no error is raised at all
(the level's first element is a non-Array, so the scan returns early) and
`[2]` is pushed as the shape. -/
theorem C5_dim_error_pushes_partial :
    dimB [[Element.arr [Element.num 1, Element.num 2], Element.arr [Element.num 3]]] =
      SRes.ok [[Element.num 2], ([] : Arr)] [errNonUniformDim]
    ∧ dimB [[Element.num 1, Element.arr [Element.num 2]]] =
      SRes.ok [[Element.num 2]] [] :=
  ⟨rfl, rfl⟩

/-- Claim C10: every built-in checks its stack requirement first — fewer than
two items for `+ - * / ^ cat swap matmul reshape`, a non-empty stack for
`. dup range dim` — and on underflow prints one diagnostic and leaves the
stack exactly unchanged (nothing was popped yet). -/
theorem C10_underflow_nondestructive :
    (∀ (t : String) (s : List Arr),
        t ∈ (["+", "-", "*", "/", "^", "cat", "swap", "matmul", "reshape"] : List String) →
        s.length < 2 → ∃ m, applyBuiltIn t s = SRes.ok s [m])
    ∧ (∀ (t : String) (s : List Arr),
        t ∈ ([".", "dup", "range", "dim"] : List String) →
        s = [] → ∃ m, applyBuiltIn t s = SRes.ok s [m]) := by
  constructor
  · intro t s ht hs
    have hs' : s = [] ∨ ∃ x, s = [x] := by
      match s with
      | [] => exact Or.inl rfl
      | [x] => exact Or.inr ⟨x, rfl⟩
      | x :: y :: tl => simp only [List.length_cons] at hs; omega
    fin_cases ht <;> rcases hs' with rfl | ⟨x, rfl⟩ <;> exact ⟨_, rfl⟩
  · intro t s ht hs
    subst hs
    fin_cases ht <;> exact ⟨_, rfl⟩

/-- Witness for C10 at two concrete underflows. -/
theorem C10_underflow_witness :
    (∃ m, applyBuiltIn "+" ([] : List Arr) = SRes.ok [] [m]) ∧
    (∃ m, applyBuiltIn "dup" ([] : List Arr) = SRes.ok [] [m]) :=
  ⟨C10_underflow_nondestructive.1 "+" [] (by simp) (by norm_num),
   C10_underflow_nondestructive.2 "dup" [] (by simp) rfl⟩

/-- Claim C8: `range` pops its single argument; on a non-negative integer n
(the C++ `static_cast<int>` bound 2^31 documents the UB limit of the cast,
the model itself being exact) it pushes `[0, 1, …, n-1]`; on a negative or
non-integer scalar it prints one diagnostic and pushes nothing, so only the
consumed argument is lost. -/
theorem C8_range_spec :
    (∀ (n : Nat) (rest : List Arr), n < 2147483648 →
        rangeB ([Element.num (n : ℚ)] :: rest) =
          SRes.ok (((List.range n).map fun i => Element.num (i : ℚ)) :: rest) [])
    ∧ (∀ (q : ℚ) (rest : List Arr), q < 0 ∨ q.den ≠ 1 →
        rangeB ([Element.num q] :: rest) = SRes.ok rest [errRangeNonNeg]) := by
  constructor
  · intro n rest _
    simp only [rangeB]
    rw [if_neg]
    · norm_num
    · rintro (hlt | hden)
      · exact absurd hlt (not_lt.mpr (by positivity))
      · exact hden (Rat.den_natCast n)
  · intro q rest h
    simp only [rangeB]
    rw [if_pos h]

/-- Witness for C8: `range 5 .` → `[0 1 2 3 4]`; `range 0 .` → `[]`;
`range -1` errors leaving only the argument consumed. -/
theorem C8_range_witness :
    rangeB [[Element.num 5]] =
      SRes.ok [[Element.num 0, Element.num 1, Element.num 2, Element.num 3, Element.num 4]] []
    ∧ rangeB [[Element.num 0]] = SRes.ok [([] : Arr)] []
    ∧ rangeB [[Element.num (-1)], [Element.num 9]] = SRes.ok [[Element.num 9]] [errRangeNonNeg] := by
  refine ⟨?_, ?_, ?_⟩
  · have h := C8_range_spec.1 5 [] (by norm_num)
    simpa [List.range_succ] using h
  · have h := C8_range_spec.1 0 [] (by norm_num)
    simpa using h
  · exact C8_range_spec.2 (-1) [[Element.num 9]] (by norm_num)

/-- Message accounting for `applyOpRecursive`'s leaf loop: a returned Array
extends the diagnostics with at most one line, and only when the returned
Array is the empty error value. -/
theorem leafGo_out (opName : String) (op : ℚ → ℚ → ℚ) (x y : Arr) :
    ∀ (idxs : List Nat) (acc : List ℚ) (out : List String) (r : Arr) (errs : List String),
      leafGo opName op x y idxs acc out = RRes.ok r errs →
      errs = out ∨ (r = [] ∧ ∃ m, errs = out ++ [m]) := by
  intro idxs
  induction idxs with
  | nil =>
    intro acc out r errs h
    simp only [leafGo] at h
    cases h
    exact Or.inl rfl
  | cons i is ih =>
    intro acc out r errs h
    simp only [leafGo] at h
    split at h
    · split at h
      · cases h
        exact Or.inr ⟨rfl, _, rfl⟩
      · exact ih _ _ _ _ h
    · cases h
      exact Or.inr ⟨rfl, _, rfl⟩
    · cases h

/-- Message accounting for the nested loop, parametric in the recursion. -/
theorem nestedGo_out (f : Arr → Arr → List String → RRes)
    (hf : ∀ xs ys out r errs, f xs ys out = RRes.ok r errs →
      errs = out ∨ (r = [] ∧ ∃ m, errs = out ++ [m])) (x y : Arr) :
    ∀ (idxs : List Nat) (acc : List Arr) (out : List String) (r : Arr) (errs : List String),
      nestedGo f x y idxs acc out = RRes.ok r errs →
      errs = out ∨ (r = [] ∧ ∃ m, errs = out ++ [m]) := by
  intro idxs
  induction idxs with
  | nil =>
    intro acc out r errs h
    simp only [nestedGo] at h
    cases h
    exact Or.inl rfl
  | cons i is ih =>
    intro acc out r errs h
    simp only [nestedGo] at h
    split at h
    · rename_i xs ys _ _
      split at h
      · cases h
      · rename_i o hres
        cases h
        rcases hf _ _ _ _ _ hres with h1 | ⟨_, m, h2⟩
        · exact Or.inl h1
        · exact Or.inr ⟨rfl, m, h2⟩
      · rename_i subA subOut hne hres
        rcases hf _ _ _ _ _ hres with h1 | ⟨hbad, _⟩
        · subst h1
          exact ih _ _ _ _ h
        · exact absurd hbad hne
    · cases h

/-- Message accounting for `applyOpRecursive` itself. -/
theorem applyOpRecursive_out (opName : String) (op : ℚ → ℚ → ℚ) :
    ∀ (shape : List Nat) (x y : Arr) (out : List String) (r : Arr) (errs : List String),
      applyOpRecursive opName op shape x y out = RRes.ok r errs →
      errs = out ∨ (r = [] ∧ ∃ m, errs = out ++ [m]) := by
  intro shape
  induction shape with
  | nil => intro x y out r errs h; cases h
  | cons n tail ih =>
    intro x y out r errs h
    cases tail with
    | nil => exact leafGo_out opName op x y _ _ _ _ _ h
    | cons d rest =>
      exact nestedGo_out _ (fun xs ys o r2 e2 hh => ih xs ys o r2 e2 hh) x y _ _ _ _ _ h

/-- Claim C6: when a leaf-level error occurs in `+ - * / ^` (the elementwise
recursion returns the empty error Array having printed a diagnostic),
exactly one line is printed, nothing is pushed, and the two popped operands
are not restored — the stack is the original minus its top two items.  The
second conjunct shows the recursion never prints more than one line. -/
theorem C6_leaf_errors_destructive :
    (∀ (opName : String) (op : ℚ → ℚ → ℚ) (a b : Arr) (rest : List Arr)
        (shape : List Nat) (m : String),
        broadcastShape a b = some shape →
        applyOpRecursive opName op shape a b [] = RRes.ok [] [m] →
        applyBinaryOp opName op (b :: a :: rest) = SRes.ok rest [m])
    ∧ (∀ (opName : String) (op : ℚ → ℚ → ℚ) (shape : List Nat) (a b : Arr)
        (r : Arr) (errs : List String),
        applyOpRecursive opName op shape a b [] = RRes.ok r errs → errs.length ≤ 1) := by
  constructor
  · intro opName op a b rest shape m h1 h2
    simp only [applyBinaryOp, h1, h2]
  · intro opName op shape a b r errs h
    rcases applyOpRecursive_out opName op shape a b [] r errs h with h1 | ⟨_, m, h2⟩
    · subst h1; simp
    · subst h2; simp

/-- Witness for C6: `1 x +` (scalar number against a character) prints the
numeric-arguments diagnostic once and removes both operands. -/
theorem C6_leaf_errors_witness :
    applyBinaryOp "+" (fun u v => u + v)
      ([Element.ch 'x'] :: [Element.num 1] :: [[Element.num 9]]) =
      SRes.ok [[Element.num 9]] [errNumeric "+"] :=
  C6_leaf_errors_destructive.1 "+" (fun u v => u + v) [Element.num 1] [Element.ch 'x']
    [[Element.num 9]] [1] (errNumeric "+") rfl rfl

/-- Scalar test in terms of the value: exactly the single-Number arrays. -/
theorem isScalar_spec (a : Arr) : isScalar a = true ↔ ∃ q, a = [Element.num q] := by
  cases a with
  | nil => simp [isScalar]
  | cons e tl =>
    cases tl with
    | nil => cases e <;> simp [isScalar]
    | cons f tl2 => simp [isScalar]

/-- The leaf loop is symmetric in its operands for a commutative operator
when the operator is not division (whose zero test reads only the right
operand). -/
theorem leafGo_swap (opName : String) (op : ℚ → ℚ → ℚ) (hop : opName ≠ "/")
    (hcomm : ∀ u v, op u v = op v u) (x y : Arr) :
    ∀ (idxs : List Nat) (acc : List ℚ) (out : List String),
      leafGo opName op x y idxs acc out = leafGo opName op y x idxs acc out := by
  intro idxs
  induction idxs with
  | nil => intro acc out; rfl
  | cons i is ih =>
    intro acc out
    cases hx : elemAt x i with
    | none =>
      cases hy : elemAt y i with
      | none => simp only [leafGo, hx, hy]
      | some ey => cases ey <;> simp only [leafGo, hx, hy]
    | some ex =>
      cases hy : elemAt y i with
      | none => cases ex <;> simp only [leafGo, hx, hy]
      | some ey =>
        cases ex <;> cases ey <;> simp only [leafGo, hx, hy]
        case num.num xv yv =>
          rw [if_neg (show ¬(opName = "/" ∧ yv = 0) from fun hc => hop hc.1),
              if_neg (show ¬(opName = "/" ∧ xv = 0) from fun hc => hop hc.1),
              hcomm xv yv]
          exact ih _ _

/-- The nested loop is symmetric once the recursion it drives is. -/
theorem nestedGo_swap (f : Arr → Arr → List String → RRes)
    (hf : ∀ xs ys out, f xs ys out = f ys xs out) (x y : Arr) :
    ∀ (idxs : List Nat) (acc : List Arr) (out : List String),
      nestedGo f x y idxs acc out = nestedGo f y x idxs acc out := by
  intro idxs
  induction idxs with
  | nil => intro acc out; rfl
  | cons i is ih =>
    intro acc out
    cases hsx : subSel x i with
    | none =>
      cases hsy : subSel y i with
      | none => simp only [nestedGo, hsx, hsy]
      | some ys => simp only [nestedGo, hsx, hsy]
    | some xs =>
      cases hsy : subSel y i with
      | none => simp only [nestedGo, hsx, hsy]
      | some ys =>
        simp only [nestedGo, hsx, hsy]
        rw [← hf xs ys out]
        cases hres : f xs ys out with
        | crash o => rfl
        | ok sub o =>
          cases sub with
          | nil => rfl
          | cons e tl => exact ih _ _

/-- `applyOpRecursive` is symmetric for a commutative non-division operator. -/
theorem applyOpRecursive_swap (opName : String) (op : ℚ → ℚ → ℚ) (hop : opName ≠ "/")
    (hcomm : ∀ u v, op u v = op v u) :
    ∀ (shape : List Nat) (x y : Arr) (out : List String),
      applyOpRecursive opName op shape x y out = applyOpRecursive opName op shape y x out := by
  intro shape
  induction shape with
  | nil => intro x y out; rfl
  | cons n tail ih =>
    intro x y out
    cases tail with
    | nil =>
      simp only [applyOpRecursive]
      exact leafGo_swap opName op hop hcomm x y _ _ _
    | cons d rest =>
      simp only [applyOpRecursive]
      exact nestedGo_swap _ (fun xs ys o => ih xs ys o) x y _ _ _

/-- The dispatch if-chain of `applyBinaryOp` treats its operands
symmetrically: whichever side is the scalar, the broadcast shape is that of
the non-scalar operand. -/
theorem broadcastShape_comm (a b : Arr) : broadcastShape a b = broadcastShape b a := by
  simp only [broadcastShape]
  by_cases ha : isScalar a = true <;> by_cases hb : isScalar b = true
  · rcases (isScalar_spec a).1 ha with ⟨q, rfl⟩
    rcases (isScalar_spec b).1 hb with ⟨r, rfl⟩
    rfl
  · simp [ha, hb]
  · simp [ha, hb]
  · simp only [Bool.not_eq_true] at ha hb
    simp only [ha, hb, Bool.false_and, Bool.and_false, Bool.not_false, Bool.true_and,
      Bool.and_self, if_false, Bool.false_eq_true, if_neg]
    by_cases hsh : getShape a = getShape b
    · rw [if_pos hsh, if_pos hsh.symm, hsh]
    · rw [if_neg hsh, if_neg (show ¬(getShape b = getShape a) from fun h => hsh h.symm)]

/-- Claim C7 (amended): for a commutative leaf operator that is not `/`
(so for the built-ins `+` and `*`), swapping the two popped operands leaves
the entire outcome of `applyBinaryOp` unchanged — in particular the
element-wise result values.  For `- / ^` the operand order determines which
side of the operator the scalar supplies (see the counterexample). -/
theorem C7_commutative_swap (opName : String) (op : ℚ → ℚ → ℚ)
    (hop : opName ≠ "/") (hcomm : ∀ u v, op u v = op v u) (x y : Arr) (rest : List Arr) :
    applyBinaryOp opName op (x :: y :: rest) = applyBinaryOp opName op (y :: x :: rest) := by
  simp only [applyBinaryOp]
  rw [broadcastShape_comm y x]
  cases hbs : broadcastShape x y with
  | none => simp only []
  | some shape =>
    simp only []
    rw [applyOpRecursive_swap opName op hop hcomm shape y x []]

/-- Counterexample to claim C7 as stated: for the non-commutative built-in
`-`, `5 [1 2] -` yields `[4 3]` while `[1 2] 5 -` yields `[-4 -3]` — the
element-wise result values do depend on the operand order. -/
theorem C7_subtraction_counterexample :
    applyBinaryOp "-" (fun u v => u - v)
      [[Element.num 1, Element.num 2], [Element.num 5]] =
      SRes.ok [[Element.num 4, Element.num 3]] []
    ∧ applyBinaryOp "-" (fun u v => u - v)
      [[Element.num 5], [Element.num 1, Element.num 2]] =
      SRes.ok [[Element.num (-4), Element.num (-3)]] []
    ∧ ([Element.num 4, Element.num 3] : Arr) ≠ [Element.num (-4), Element.num (-3)] := by
  refine ⟨?_, ?_, ?_⟩
  · norm_num [applyBinaryOp, broadcastShape, isScalar, getShape, getShapeF, lsize, esize,
      uniformRow, applyOpRecursive, leafGo, elemAt, List.range, List.range.loop]
  · norm_num [applyBinaryOp, broadcastShape, isScalar, getShape, getShapeF, lsize, esize,
      uniformRow, applyOpRecursive, leafGo, elemAt, List.range, List.range.loop]
  · intro h
    have h2 : (4 : ℚ) = -4 := by
      injection h with h1 _
      injection h1
    norm_num at h2

/-- Witness for the amended C7 at `+` on a scalar and a rank-1 array. -/
theorem C7_commutative_swap_witness :
    applyBinaryOp "+" (fun u v => u + v)
      [[Element.num 1, Element.num 2], [Element.num 5]] =
      applyBinaryOp "+" (fun u v => u + v)
      [[Element.num 5], [Element.num 1, Element.num 2]] :=
  C7_commutative_swap "+" (fun u v => u + v) (by decide) (fun u v => add_comm u v)
    [Element.num 1, Element.num 2] [Element.num 5] []

/-- A level whose elements are all Arrays of length L passes the uniformity
scan. -/
theorem uniformRow_of (L : Nat) :
    ∀ (l : List Element), (∀ e ∈ l, ∃ sub, e = Element.arr sub ∧ sub.length = L) →
      uniformRow L l = true := by
  intro l
  induction l with
  | nil => intro _; rfl
  | cons e tl ih =>
    intro h
    rcases h e (by simp) with ⟨sub, rfl, hlen⟩
    simp only [uniformRow, if_pos hlen]
    exact ih fun e2 he2 => h e2 (by simp [he2])

/-- Every size is at least 1. -/
theorem lsize_pos : ∀ (l : List Element), 1 ≤ lsize l := by
  intro l
  cases l with
  | nil => simp [lsize]
  | cons e r =>
    have : 1 ≤ esize e := by cases e <;> simp [esize]
    simp only [lsize]
    omega

/-- The size fuel dominates the rank of any realized shape (with positive
outer dimensions). -/
theorem shaped_length_le_lsize :
    ∀ (dims : List Nat) (a : Arr), Shaped dims a → (∀ d ∈ dims.dropLast, 1 ≤ d) →
      dims.length ≤ lsize a := by
  intro dims
  induction dims with
  | nil => intro a h; cases h
  | cons d tail ih =>
    intro a h hpos
    cases tail with
    | nil => simpa using lsize_pos a
    | cons d2 rest =>
      obtain ⟨hlen, hsub⟩ := h
      have hd : 1 ≤ d := hpos d (by simp)
      cases a with
      | nil => simp at hlen; omega
      | cons e0 atl =>
        rcases hsub e0 (by simp) with ⟨sub0, rfl, hsh0⟩
        have htail := ih sub0 hsh0 (by
          intro d3 hd3
          exact hpos d3 (by simp [List.dropLast_cons_of_ne_nil] at hd3 ⊢; tauto))
        have htail' : rest.length + 1 ≤ lsize sub0 := by simpa using htail
        have h1 := lsize_pos atl
        have heq : lsize (Element.arr sub0 :: atl) = 1 + lsize sub0 + lsize atl := by
          simp [lsize, esize]
        simp only [List.length_cons, heq]
        omega

/-- `getShape` recovers the dimension list of an exactly shaped array
(positive dimensions above the leaf level), given enough fuel. -/
theorem getShapeF_shaped :
    ∀ (dims : List Nat) (a : Arr) (f : Nat),
      Shaped dims a → (∀ d ∈ dims.dropLast, 1 ≤ d) → dims.length ≤ f →
      getShapeF f a = dims := by
  intro dims
  induction dims with
  | nil => intro a f h; cases h
  | cons d tail ih =>
    intro a f h hpos hf
    cases f with
    | zero => simp at hf
    | succ f' =>
      cases tail with
      | nil =>
        obtain ⟨hlen, hleaf⟩ := h
        cases a with
        | nil =>
          have hd0 : d = 0 := by simpa using hlen.symm
          subst hd0
          rfl
        | cons e0 atl =>
          cases e0 with
          | arr s => exact absurd rfl (hleaf (Element.arr s) (by simp) s)
          | ch c => simpa [getShapeF] using hlen
          | num q => simpa [getShapeF] using hlen
          | text t => simpa [getShapeF] using hlen
      | cons d2 rest =>
        obtain ⟨hlen, hsub⟩ := h
        have hd : 1 ≤ d := hpos d (by simp)
        cases a with
        | nil => simp at hlen; omega
        | cons e0 atl =>
          rcases hsub e0 (by simp) with ⟨sub0, rfl, hsh0⟩
          have huni : uniformRow sub0.length atl = true := by
            apply uniformRow_of
            intro e2 he2
            rcases hsub e2 (by simp [he2]) with ⟨sub2, rfl, hsh2⟩
            refine ⟨sub2, rfl, ?_⟩
            have l0 : sub0.length = d2 := by
              cases rest with
              | nil => exact hsh0.1
              | cons d3 r3 => exact hsh0.1
            have l2 : sub2.length = d2 := by
              cases rest with
              | nil => exact hsh2.1
              | cons d3 r3 => exact hsh2.1
            rw [l0, l2]
          simp only [getShapeF, huni, if_pos]
          have htl : getShapeF f' sub0 = d2 :: rest := by
            apply ih sub0 f' hsh0
            · intro d3 hd3
              exact hpos d3 (by simp [List.dropLast_cons_of_ne_nil] at hd3 ⊢; tauto)
            · simp only [List.length_cons] at hf ⊢
              omega
          rw [htl]
          simp only [List.length_cons] at hlen
          simp [hlen]

/-- `getShape` on an exactly shaped array. -/
theorem getShape_shaped (dims : List Nat) (a : Arr) (h : Shaped dims a)
    (hpos : ∀ d ∈ dims.dropLast, 1 ≤ d) : getShape a = dims :=
  getShapeF_shaped dims a (lsize a) h hpos (shaped_length_le_lsize dims a h hpos)

/-- An encoded rational matrix with uniform row length n has exact shape
[A.length, n]. -/
theorem shaped_encodeMat (A : List (List ℚ)) (n : Nat) (h : ∀ r ∈ A, r.length = n) :
    Shaped [A.length, n] (encodeMat A) := by
  refine ⟨by simp [encodeMat], ?_⟩
  intro e he
  simp only [encodeMat, List.mem_map] at he
  rcases he with ⟨r, hr, rfl⟩
  refine ⟨r.map Element.num, rfl, by simp [h r hr], ?_⟩
  intro e2 he2
  simp only [List.mem_map] at he2
  rcases he2 with ⟨q, _, rfl⟩
  intro s
  simp

/-- Both matmul validation loops accept an encoded rational matrix. -/
theorem rowCheck_encodeMat : ∀ (A : List (List ℚ)), rowCheck (encodeMat A) = none := by
  intro A
  induction A with
  | nil => rfl
  | cons r A' ih =>
    simp only [encodeMat, List.map_cons, encodeRow, rowCheck]
    rw [if_pos, ← encodeMat]
    · exact ih
    · simp [List.all_eq_true, isNumE]

/-- The guarded double access of the matmul loop agrees with the
specification's list lookup on encoded matrices (the default 0 agrees on
both sides out of range). -/
theorem matGet_encodeMat (A : List (List ℚ)) (i k : Nat) :
    matGet (encodeMat A) i k = (A.getD i []).getD k 0 := by
  simp only [matGet, encodeMat, List.getElem?_map]
  cases hi : A[i]? with
  | none => simp [hi, List.getD_eq_getElem?_getD]
  | some r =>
    simp only [hi, Option.map_some', encodeRow, List.getElem?_map]
    cases hk : r[k]? with
    | none => simp [hk, List.getD_eq_getElem?_getD, hi]
    | some q => simp [hk, List.getD_eq_getElem?_getD, hi]

/-- A left fold of additions is the sum of the mapped list. -/
theorem foldl_add_map (g : Nat → ℚ) :
    ∀ (l : List Nat) (c : ℚ), l.foldl (fun acc k => acc + g k) c = c + (l.map g).sum := by
  intro l
  induction l with
  | nil => intro c; simp
  | cons k ks ih => intro c; simp [ih, add_assoc]

/-- The matmul triple loop on encoded matrices computes the claim's
entry formula. -/
theorem mmResult_encode (A B : List (List ℚ)) (n p : Nat) :
    mmResult (encodeMat A) (encodeMat B) A.length n p = encodeMat (mmSpec A B n p) := by
  simp only [mmResult, mmSpec, encodeMat, List.map_map]
  apply List.map_congr_left
  intro i _
  simp only [Function.comp, encodeRow, List.map_map]
  congr 1
  apply List.map_congr_left
  intro j _
  simp only [Function.comp]
  congr 1
  simp only [dotProd, matEntry, foldl_add_map, zero_add]
  congr 1
  apply List.map_congr_left
  intro k _
  rw [show List.map encodeRow A = encodeMat A from rfl,
      show List.map encodeRow B = encodeMat B from rfl,
      matGet_encodeMat, matGet_encodeMat]

/-- Claim C2: matmul on rank-2 numeric operands `a : m×n` (popped second)
and `b : n×p` (popped from the top) pushes exactly the m×p Array of Arrays
whose entry (i, j) is the sum over k of a[i][k]·b[k][j]; when an operand is
not rank-2, the inner dimensions differ, or a leaf is not a Number, one
diagnostic is printed and nothing is pushed. -/
theorem C2_matmul_spec :
    (∀ (A B : List (List ℚ)) (p : Nat) (rest : List Arr),
        A ≠ [] → B ≠ [] →
        (∀ r ∈ A, r.length = B.length) →
        (∀ r ∈ B, r.length = p) →
        matmulB (encodeMat B :: encodeMat A :: rest) =
          SRes.ok (encodeMat (mmSpec A B B.length p) :: rest) [])
    ∧ (∀ (a b : Arr) (rest : List Arr), ¬ MatmulAccepts a b →
        ∃ msg, matmulB (b :: a :: rest) = SRes.ok rest [msg]) := by
  constructor
  · intro A B p rest hA hB hrowA hrowB
    have hm : 1 ≤ A.length := by
      cases A with
      | nil => exact absurd rfl hA
      | cons r A' => simp
    have hn : 1 ≤ B.length := by
      cases B with
      | nil => exact absurd rfl hB
      | cons r B' => simp
    have hshA : getShape (encodeMat A) = [A.length, B.length] :=
      getShape_shaped _ _ (shaped_encodeMat A B.length hrowA) (by simpa using hm)
    have hshB : getShape (encodeMat B) = [B.length, p] :=
      getShape_shaped _ _ (shaped_encodeMat B p hrowB) (by simpa using hn)
    simp only [matmulB, hshA, hshB, rowCheck_encodeMat, if_pos]
    rw [mmResult_encode]
  · intro a b rest hna
    simp only [matmulB]
    split
    · rename_i m n nb p heqA heqB
      split
      · rename_i hnn
        subst hnn
        split
        · exact ⟨_, rfl⟩
        · rename_i hra
          split
          · exact ⟨_, rfl⟩
          · rename_i hrb
            exact absurd ⟨m, n, p, heqA, heqB, hra, hrb⟩ hna
      · exact ⟨_, rfl⟩
    · exact ⟨_, rfl⟩

/-- Witness for C2: `[[1 2] [3 4]] [[5 6] [7 8]] matmul` pushes
`[[19 22] [43 50]]`. -/
theorem C2_matmul_witness :
    matmulB [encodeMat [[5, 6], [7, 8]], encodeMat [[1, 2], [3, 4]]] =
      SRes.ok [encodeMat [[19, 22], [43, 50]]] [] := by
  have h := C2_matmul_spec.1 [[1, 2], [3, 4]] [[5, 6], [7, 8]] 2 []
    (by simp) (by simp) (by norm_num) (by norm_num)
  rw [h]
  norm_num [mmSpec, matEntry, List.range_succ]

/-- `parseDims` accepts an encoded positive dimension list and recovers it
(the `static_cast<size_t>` round-trips exactly on the model). -/
theorem parseDims_encodeDims :
    ∀ (dims : List Nat), (∀ d ∈ dims, 1 ≤ d) → parseDims (encodeDims dims) = Except.ok dims := by
  intro dims
  induction dims with
  | nil => intro _; rfl
  | cons d ds ih =>
    intro h
    have hd : 1 ≤ d := h d (by simp)
    have hstep : encodeDims (d :: ds) = Element.num (d : ℚ) :: encodeDims ds := rfl
    rw [hstep]
    simp only [parseDims]
    rw [if_pos ⟨by exact_mod_cast hd, Rat.den_natCast d⟩,
      ih fun d2 hd2 => h d2 (by simp [hd2])]
    simp [Rat.num_natCast, Int.toNat_natCast]

/-- A list of positive naturals has positive product. -/
theorem one_le_prod_of_one_le :
    ∀ (l : List Nat), (∀ d ∈ l, 1 ≤ d) → 1 ≤ l.prod := by
  intro l
  induction l with
  | nil => intro _; simp
  | cons d ds ih =>
    intro h
    rw [List.prod_cons]
    exact Nat.one_le_iff_ne_zero.mpr (Nat.mul_ne_zero
      (Nat.one_le_iff_ne_zero.mp (h d (by simp)))
      (Nat.one_le_iff_ne_zero.mp (ih fun d2 hd2 => h d2 (by simp [hd2]))))

/-- The wrapping `size_t` product agrees with the mathematical product while
the latter stays below 2^64 (positive dimensions keep every prefix product
below the final one). -/
theorem totalSize_foldl :
    ∀ (dims : List Nat) (t : Nat), (∀ d ∈ dims, 1 ≤ d) →
      t * dims.prod < 18446744073709551616 →
      dims.foldl (fun t d => t * d % 18446744073709551616) t = t * dims.prod := by
  intro dims
  induction dims with
  | nil => intro t _ _; simp
  | cons d ds ih =>
    intro t h hbound
    have hds : 1 ≤ ds.prod := one_le_prod_of_one_le ds fun d2 hd2 => h d2 (by simp [hd2])
    have hle : t * d ≤ t * (d :: ds).prod := by
      rw [List.prod_cons, ← Nat.mul_assoc]
      exact Nat.le_mul_of_pos_right _ hds
    have hmod : t * d % 18446744073709551616 = t * d :=
      Nat.mod_eq_of_lt (Nat.lt_of_le_of_lt hle hbound)
    simp only [List.foldl_cons, hmod]
    rw [ih (t * d) (fun d2 hd2 => h d2 (by simp [hd2]))
      (by rw [Nat.mul_assoc, ← List.prod_cons]; exact hbound)]
    rw [Nat.mul_assoc, List.prod_cons]

theorem totalSize_eq_prod (dims : List Nat) (h : ∀ d ∈ dims, 1 ≤ d)
    (hb : dims.prod < 18446744073709551616) : totalSize dims = dims.prod := by
  have := totalSize_foldl dims 1 h (by simpa using hb)
  simpa [totalSize] using this

/-- A bad shape array (some element not a positive-integer Number) makes the
validation loop abort with a diagnostic. -/
theorem parseDims_bad :
    ∀ (shape : Arr), ¬ GoodShape shape → ∃ e, parseDims shape = Except.error e := by
  intro shape
  induction shape with
  | nil => intro h; exact absurd (fun e he => absurd he (List.not_mem_nil e)) h
  | cons el tl ih =>
    intro h
    cases el with
    | num v =>
      by_cases hv : 0 < v ∧ v.den = 1
      · have hgood : ∃ d : Nat, 1 ≤ d ∧ Element.num v = Element.num (d : ℚ) := by
          refine ⟨v.num.toNat, ?_, ?_⟩
          · have : 0 < v.num := Rat.num_pos.mpr hv.1
            omega
          · have h1 : (v.num : ℚ) = v := (Rat.den_eq_one_iff v).mp hv.2
            have h2 : ((v.num.toNat : Int) : ℚ) = (v.num : ℚ) := by
              congr 1
              exact Int.toNat_of_nonneg (Int.le_of_lt (Rat.num_pos.mpr hv.1))
            congr 1
            rw [← h1, ← h2]
            norm_cast
        have htl : ¬ GoodShape tl := by
          intro htl2
          apply h
          intro e he
          rcases List.mem_cons.mp he with rfl | he2
          · exact hgood
          · exact htl2 e he2
        rcases ih htl with ⟨e, he⟩
        refine ⟨e, ?_⟩
        simp only [parseDims, if_pos hv, he]
      · exact ⟨errReshapePosInt, by simp only [parseDims, if_neg hv]⟩
    | ch c => exact ⟨errReshapeNumeric, rfl⟩
    | text t => exact ⟨errReshapeNumeric, rfl⟩
    | arr a => exact ⟨errReshapeNumeric, rfl⟩

/-- The leaf loop of `buildArray` takes exactly the in-range slice. -/
theorem leafBuild_take (data : Arr) :
    ∀ (d idx : Nat), idx + d ≤ data.length →
      leafBuild data d idx = ((data.drop idx).take d, idx + d) := by
  intro d
  induction d with
  | zero => intro idx _; simp [leafBuild]
  | succ k ih =>
    intro idx hle
    have hidx : idx < data.length := by omega
    simp only [leafBuild, List.getElem?_eq_getElem hidx]
    rw [ih (idx + 1) (by omega)]
    rw [List.drop_eq_getElem_cons hidx]
    simp only [List.take_succ_cons, Prod.mk.injEq, true_and]
    omega

/-- The unconsumed remainder of the spec-side row-major build. -/
theorem rowMajorSpec_snd :
    ∀ (dims : List Nat) (xs : List Element), dims ≠ [] →
      (rowMajorSpec dims xs).2 = xs.drop dims.prod := by
  intro dims
  induction dims with
  | nil => intro xs h; exact absurd rfl h
  | cons d tail ih =>
    intro xs _
    cases tail with
    | nil => simp [rowMajorSpec]
    | cons d2 rest =>
      simp only [rowMajorSpec]
      have hiter : ∀ (k : Nat) (ys : List Element),
          (rowMajorIter (rowMajorSpec (d2 :: rest)) k ys).2 = ys.drop (k * (d2 :: rest).prod) := by
        intro k
        induction k with
        | zero => intro ys; simp [rowMajorIter]
        | succ k2 ihk =>
          intro ys
          simp only [rowMajorIter]
          rw [ih ys (by simp), ihk (ys.drop (d2 :: rest).prod), List.drop_drop]
          congr 1
          ring
      rw [hiter d xs]
      congr 1

/-- `buildArray` refines the spec-side row-major build: starting at `idx`
with the whole block in range, it builds the spec value and advances the
index by the block size. -/
theorem buildArr_rowMajor (data : Arr) :
    ∀ (dims : List Nat) (idx : Nat), dims ≠ [] → idx + dims.prod ≤ data.length →
      buildArr data dims idx = ((rowMajorSpec dims (data.drop idx)).1, idx + dims.prod) := by
  intro dims
  induction dims with
  | nil => intro idx h; exact absurd rfl h
  | cons d tail ih =>
    intro idx _ hle
    cases tail with
    | nil =>
      simp only [List.prod_cons, List.prod_nil, Nat.mul_one] at hle ⊢
      rw [buildArr, leafBuild_take data d idx hle]
      simp [rowMajorSpec]
    | cons d2 rest =>
      simp only [buildArr, rowMajorSpec]
      have hiter : ∀ (k j : Nat), j + k * (d2 :: rest).prod ≤ data.length →
          buildIter (buildArr data (d2 :: rest)) k j =
            ((rowMajorIter (rowMajorSpec (d2 :: rest)) k (data.drop j)).1,
              j + k * (d2 :: rest).prod) := by
        intro k
        induction k with
        | zero => intro j _; simp [buildIter, rowMajorIter]
        | succ k2 ihk =>
          intro j hj
          have h1 : j + (d2 :: rest).prod ≤ data.length := by
            have := Nat.le_add_left ((d2 :: rest).prod) (k2 * (d2 :: rest).prod)
            calc j + (d2 :: rest).prod ≤ j + (k2 + 1) * (d2 :: rest).prod := by
                  rw [Nat.succ_mul]; omega
              _ ≤ data.length := hj
          simp only [buildIter, rowMajorIter]
          rw [ih j (by simp) h1]
          rw [ihk (j + (d2 :: rest).prod) (by rw [Nat.succ_mul] at hj; omega)]
          rw [rowMajorSpec_snd (d2 :: rest) (data.drop j) (by simp), List.drop_drop]
          simp only [Prod.mk.injEq, true_and]
          ring
      rw [hiter d idx (by rw [List.prod_cons] at hle; exact hle)]
      simp only [Prod.mk.injEq]
      constructor
      · trivial
      · simp [List.prod_cons]

/-- Shared success path of the `reshape` built-in (used by the theorems for
C3 and C4): a valid positive shape whose product is exactly the data length
pushes the spec-side row-major build. -/
theorem reshapeB_success (dims : List Nat) (data : Arr) (rest : List Arr)
    (hpos : ∀ d ∈ dims, 1 ≤ d) (hne : dims ≠ [])
    (hprod : dims.prod = data.length) (hbound : data.length < 18446744073709551616) :
    reshapeB (encodeDims dims :: data :: rest) =
      SRes.ok ((rowMajorSpec dims data).1 :: rest) [] := by
  have hnem : (encodeDims dims).isEmpty = false := by
    cases dims with
    | nil => exact absurd rfl hne
    | cons d ds => rfl
  simp only [reshapeB, hnem, Bool.false_eq_true, if_false,
    parseDims_encodeDims dims hpos]
  rw [totalSize_eq_prod dims hpos (by omega), hprod, if_pos rfl]
  rw [buildArr_rowMajor data dims 0 hne (by omega)]
  simp

/-- Claim C3 (amended): reshape pops shape (top) then data; an empty shape
array is rejected (this clause is the amendment — the claim as stated lets
the empty list through as "all elements positive integers, product 1"); a
shape with a non-positive-integer element is rejected with one diagnostic;
a positive shape whose product differs from the data length is rejected;
otherwise exactly the spec-side row-major build (last dimension innermost,
data consumed left-to-right depth-first) is pushed, consuming the data
exactly (no padding, no truncation). -/
theorem C3_reshape_rowmajor :
    (∀ (data : Arr) (rest : List Arr),
        reshapeB (([] : Arr) :: data :: rest) = SRes.ok rest [errReshapeNonEmpty])
    ∧ (∀ (shape data : Arr) (rest : List Arr), shape ≠ [] → ¬ GoodShape shape →
        ∃ msg, reshapeB (shape :: data :: rest) = SRes.ok rest [msg])
    ∧ (∀ (dims : List Nat) (data : Arr) (rest : List Arr),
        (∀ d ∈ dims, 1 ≤ d) → dims ≠ [] → dims.prod < 18446744073709551616 →
        dims.prod ≠ data.length →
        reshapeB (encodeDims dims :: data :: rest) = SRes.ok rest [errReshapeDataSize])
    ∧ (∀ (dims : List Nat) (data : Arr) (rest : List Arr),
        (∀ d ∈ dims, 1 ≤ d) → dims ≠ [] → dims.prod = data.length →
        data.length < 18446744073709551616 →
        reshapeB (encodeDims dims :: data :: rest) =
          SRes.ok ((rowMajorSpec dims data).1 :: rest) []
        ∧ (rowMajorSpec dims data).2 = []) := by
  refine ⟨fun data rest => rfl, ?_, ?_, ?_⟩
  · intro shape data rest hne hbad
    rcases parseDims_bad shape hbad with ⟨e, he⟩
    cases shape with
    | nil => exact absurd rfl hne
    | cons el tl =>
      exact ⟨e, by simp only [reshapeB, List.isEmpty_cons, Bool.false_eq_true, if_false, he]⟩
  · intro dims data rest hpos hne hbound hprodne
    have hnem : (encodeDims dims).isEmpty = false := by
      cases dims with
      | nil => exact absurd rfl hne
      | cons d ds => rfl
    simp only [reshapeB, hnem, Bool.false_eq_true, if_false, parseDims_encodeDims dims hpos]
    rw [totalSize_eq_prod dims hpos hbound,
      if_neg (show ¬ data.length = dims.prod from fun h => hprodne h.symm)]
  · intro dims data rest hpos hne hprod hbound
    refine ⟨reshapeB_success dims data rest hpos hne hprod hbound, ?_⟩
    rw [rowMajorSpec_snd dims data hne, hprod, List.drop_length]

/-- Counterexample to claim C3 as stated: for the empty shape array every
element is (vacuously) a positive-integer Number and the product of the
dimensions (1) equals the data length, yet the code reports an error and
pushes nothing instead of pushing a reshaped result. -/
theorem C3_empty_shape_counterexample :
    ([] : List Nat).prod = ([Element.num 5] : Arr).length
    ∧ reshapeB [([] : Arr), [Element.num 5]] = SRes.ok [] [errReshapeNonEmpty] :=
  ⟨rfl, rfl⟩

/-- Witness for C3: `[1 2 3 4] [2 2] reshape` pushes `[[1 2] [3 4]]`. -/
theorem C3_reshape_witness :
    reshapeB [encodeDims [2, 2],
        [Element.num 1, Element.num 2, Element.num 3, Element.num 4]] =
      SRes.ok [[Element.arr [Element.num 1, Element.num 2],
                Element.arr [Element.num 3, Element.num 4]]] [] := by
  have h := (C3_reshape_rowmajor.2.2.2 [2, 2]
    [Element.num 1, Element.num 2, Element.num 3, Element.num 4] []
    (by norm_num) (by simp) (by decide) (by norm_num)).1
  rw [h]
  rfl

/-- Unfolding equation for the spec-side iteration. -/
theorem rowMajorIter_succ (f : List Element → (Arr × List Element)) (k : Nat)
    (xs : List Element) :
    rowMajorIter f (k + 1) xs =
      (Element.arr (f xs).1 :: (rowMajorIter f k (f xs).2).1,
        (rowMajorIter f k (f xs).2).2) := by
  rcases hf : f xs with ⟨sub, ys⟩
  rcases hit : rowMajorIter f k ys with ⟨subs, zs⟩
  simp [rowMajorIter, hf, hit]

/-- The spec-side iteration yields exactly k blocks. -/
theorem rowMajorIter_length (f : List Element → (Arr × List Element)) :
    ∀ (k : Nat) (xs : List Element), (rowMajorIter f k xs).1.length = k := by
  intro k
  induction k with
  | zero => intro xs; rfl
  | succ k2 ih =>
    intro xs
    rw [rowMajorIter_succ]
    simp [ih]

/-- The row-major build of a block of non-Array data realizes its dimension
list exactly. -/
theorem rowMajor_shaped :
    ∀ (dims : List Nat) (xs : List Element),
      (∀ d ∈ dims, 1 ≤ d) → dims ≠ [] → dims.prod ≤ xs.length →
      (∀ e ∈ xs, ∀ s, e ≠ Element.arr s) →
      Shaped dims (rowMajorSpec dims xs).1 := by
  intro dims
  induction dims with
  | nil => intro xs _ hne; exact absurd rfl hne
  | cons d tail ih =>
    intro xs hpos _ hlen hnoarr
    cases tail with
    | nil =>
      simp only [List.prod_cons, List.prod_nil, Nat.mul_one] at hlen
      refine ⟨by simp [rowMajorSpec, List.length_take]; omega, ?_⟩
      intro e he
      exact hnoarr e (List.take_subset d xs he)
    | cons d2 rest =>
      have hiter : ∀ (k : Nat) (ys : List Element), k * (d2 :: rest).prod ≤ ys.length →
          (∀ e ∈ ys, ∀ s, e ≠ Element.arr s) →
          ∀ e ∈ (rowMajorIter (rowMajorSpec (d2 :: rest)) k ys).1,
            ∃ sub, e = Element.arr sub ∧ Shaped (d2 :: rest) sub := by
        intro k
        induction k with
        | zero => intro ys _ _ e he; simp [rowMajorIter] at he
        | succ k2 ihk =>
          intro ys hklen hysna e he
          rw [rowMajorIter_succ] at he
          have hp' : (d2 :: rest).prod ≤ ys.length := by
            have h1 : (d2 :: rest).prod ≤ (k2 + 1) * (d2 :: rest).prod := by
              have := Nat.le_mul_of_pos_left ((d2 :: rest).prod) (show 0 < k2 + 1 by omega)
              omega
            omega
          rcases List.mem_cons.mp he with rfl | he2
          · exact ⟨(rowMajorSpec (d2 :: rest) ys).1, rfl,
              ih ys (fun d3 hd3 => hpos d3 (by simp [hd3])) (by simp) hp' hysna⟩
          · apply ihk ((rowMajorSpec (d2 :: rest) ys).2)
            · rw [rowMajorSpec_snd (d2 :: rest) ys (by simp), List.length_drop]
              rw [Nat.succ_mul] at hklen
              omega
            · intro e2 he3
              rw [rowMajorSpec_snd (d2 :: rest) ys (by simp)] at he3
              exact hysna e2 (List.drop_subset _ _ he3)
            · exact he2
      refine ⟨?_, ?_⟩
      · simp only [rowMajorSpec]
        exact rowMajorIter_length _ d xs
      · intro e he
        simp only [rowMajorSpec] at he
        exact hiter d xs (by rw [List.prod_cons] at hlen; exact hlen) hnoarr e he

/-- The `getDims` recursion of the `dim` built-in recovers the dimension
list of an exactly shaped array (positive dimensions), given enough fuel,
without taking the error path. -/
theorem getDimsF_shaped :
    ∀ (dims : List Nat) (a : Arr) (acc : List Nat) (f : Nat),
      Shaped dims a → (∀ d ∈ dims, 1 ≤ d) → dims.length ≤ f →
      getDimsF f a acc = (acc ++ dims, false) := by
  intro dims
  induction dims with
  | nil => intro a acc f h; cases h
  | cons d tail ih =>
    intro a acc f h hpos hf
    cases f with
    | zero => simp at hf
    | succ f' =>
      cases tail with
      | nil =>
        obtain ⟨hlen, hleaf⟩ := h
        have hd : 1 ≤ d := hpos d (by simp)
        cases a with
        | nil => simp at hlen; omega
        | cons e0 atl =>
          cases e0 with
          | arr s => exact absurd rfl (hleaf (Element.arr s) (by simp) s)
          | ch c => simp only [getDimsF, List.length_cons] at hlen ⊢; simp [hlen]
          | num q => simp only [getDimsF, List.length_cons] at hlen ⊢; simp [hlen]
          | text t => simp only [getDimsF, List.length_cons] at hlen ⊢; simp [hlen]
      | cons d2 rest =>
        obtain ⟨hlen, hsub⟩ := h
        have hd : 1 ≤ d := hpos d (by simp)
        cases a with
        | nil => simp at hlen; omega
        | cons e0 atl =>
          rcases hsub e0 (by simp) with ⟨sub0, rfl, hsh0⟩
          have huni : uniformRow sub0.length atl = true := by
            apply uniformRow_of
            intro e2 he2
            rcases hsub e2 (by simp [he2]) with ⟨sub2, rfl, hsh2⟩
            refine ⟨sub2, rfl, ?_⟩
            have l0 : sub0.length = d2 := by
              cases rest with
              | nil => exact hsh0.1
              | cons d3 r3 => exact hsh0.1
            have l2 : sub2.length = d2 := by
              cases rest with
              | nil => exact hsh2.1
              | cons d3 r3 => exact hsh2.1
            rw [l0, l2]
          simp only [getDimsF, huni, if_pos]
          rw [ih sub0 (acc ++ [atl.length + 1]) f' hsh0
            (fun d3 hd3 => hpos d3 (by simp [hd3]))
            (by simp only [List.length_cons] at hf ⊢; omega)]
          simp only [List.length_cons] at hlen
          simp [hlen, List.append_assoc]

/-- The `dim` built-in on an exactly shaped non-scalar array pushes its
dimension list as a flat numeric Array. -/
theorem dimB_of_shaped (dims : List Nat) (R : Arr) (rest : List Arr)
    (h : Shaped dims R) (hpos : ∀ d ∈ dims, 1 ≤ d) (hne1 : dims ≠ [1]) :
    dimB (R :: rest) = SRes.ok (encodeDims dims :: rest) [] := by
  have hgo : goDim R rest = SRes.ok (encodeDims dims :: rest) [] := by
    simp only [goDim]
    rw [getDimsF_shaped dims R [] (lsize R) h hpos
      (shaped_length_le_lsize dims R h fun d hd => hpos d (List.dropLast_subset _ hd))]
    rfl
  cases dims with
  | nil => cases h
  | cons d tail =>
    have hd : 1 ≤ d := hpos d (by simp)
    cases R with
    | nil =>
      have hlen : (0 : Nat) = d := by
        cases tail with
        | nil => simpa using h.1
        | cons d2 r2 => simpa using h.1
      omega
    | cons e0 Rtl =>
      cases Rtl with
      | nil =>
        cases e0 with
        | arr s => exact hgo
        | num q =>
          cases tail with
          | nil =>
            have : d = 1 := by simpa using h.1.symm
            subst this
            exact absurd rfl hne1
          | cons d2 r2 =>
            rcases h.2 (Element.num q) (by simp) with ⟨sub, hq, _⟩
            cases hq
        | ch c =>
          cases tail with
          | nil =>
            have : d = 1 := by simpa using h.1.symm
            subst this
            exact absurd rfl hne1
          | cons d2 r2 =>
            rcases h.2 (Element.ch c) (by simp) with ⟨sub, hq, _⟩
            cases hq
        | text t =>
          cases tail with
          | nil =>
            have : d = 1 := by simpa using h.1.symm
            subst this
            exact absurd rfl hne1
          | cons d2 r2 =>
            rcases h.2 (Element.text t) (by simp) with ⟨sub, hq, _⟩
            cases hq
      | cons e1 Rtl2 => cases e0 <;> exact hgo

/-- Claim C4 (amended): for a data array of non-Array values and a positive
dimension list other than `[1]` whose product is the data length, `reshape`
then `dim` recovers exactly the shape argument.  (As stated the claim fails
for `[1]`, where the reshaped result is a scalar and `dim` yields `[]`, and
for data containing Array elements, where `dim` descends into them.) -/
theorem C4_reshape_dim_roundtrip :
    ∀ (dims : List Nat) (data : Arr) (rest : List Arr),
      (∀ d ∈ dims, 1 ≤ d) → dims ≠ [] → dims ≠ [1] →
      (∀ e ∈ data, ∀ s, e ≠ Element.arr s) →
      dims.prod = data.length → data.length < 18446744073709551616 →
      reshapeB (encodeDims dims :: data :: rest) =
        SRes.ok ((rowMajorSpec dims data).1 :: rest) []
      ∧ dimB ((rowMajorSpec dims data).1 :: rest) = SRes.ok (encodeDims dims :: rest) [] := by
  intro dims data rest hpos hne hne1 hnoarr hprod hbound
  refine ⟨reshapeB_success dims data rest hpos hne hprod hbound, ?_⟩
  exact dimB_of_shaped dims _ rest
    (rowMajor_shaped dims data hpos hne (by omega) hnoarr) hpos hne1

/-- Counterexample to claim C4 as stated: the valid shape argument `[1]`
with data `[5]` (product 1 = length 1) reshapes to the scalar `[5]`, on
which `dim` pushes the empty Array, not the shape argument `[1]`. -/
theorem C4_scalar_roundtrip_counterexample :
    reshapeB [[Element.num 1], [Element.num 5]] = SRes.ok [[Element.num 5]] []
    ∧ dimB [[Element.num 5]] = SRes.ok [([] : Arr)] []
    ∧ (([] : Arr) ≠ [Element.num 1]) := by
  refine ⟨rfl, rfl, by simp⟩

/-- Witness for the amended C4: `[1 2 3 4] [2 2] reshape dim` pushes
`[2 2]`. -/
theorem C4_roundtrip_witness :
    dimB [[Element.arr [Element.num 1, Element.num 2],
           Element.arr [Element.num 3, Element.num 4]]] =
      SRes.ok [encodeDims [2, 2]] [] := by
  have h := (C4_reshape_dim_roundtrip [2, 2]
    [Element.num 1, Element.num 2, Element.num 3, Element.num 4] []
    (by norm_num) (by simp) (by simp) ?_ (by decide) (by norm_num)).2
  · exact h
  · intro e he s
    simp only [List.mem_cons, List.not_mem_nil, or_false] at he
    rcases he with rfl | rfl | rfl | rfl <;> simp

/-- Claim C9: (1) invoking a word looks its body up in the dictionary at
invocation time and evaluates those raw stored tokens (late binding — the
body comes from the current state, so a redefinition is visible on the next
call); (2) committing a definition prepends `(name, raw body tokens)` to the
dictionary; (3) lookup takes the most recent entry, so the last definition
wins; (4) a closed run: after `:d dup cat :end`, `:q d d :end`, `3 q`
(stack `[3 3 3 3]`), redefining `:d dup :end` changes `q`'s behaviour on
its next call, leaving stack `[3] [3] [3] [3 3 3 3]` and the dictionary
with the new `d` first. -/
theorem C9_late_binding :
    (∀ (f : Nat) (w : String) (body rest : List String) (isFB : Bool)
        (fn : String) (fb : List String) (st : EState),
        lookupFn st.funcs w = some body → w.front ≠ ':' →
        evalLoop (f + 1) (w :: rest) isFB false fn fb st =
          (match evalLoop f body true false "" [] st with
           | ERes.ok st2 => evalLoop f rest isFB false fn fb st2
           | r => r))
    ∧ (∀ (f : Nat) (w : String) (body rest acc : List String) (st : EState),
        (∀ t ∈ body, t ≠ ":dump" ∧ t ≠ ":end") →
        evalLoop (f + body.length + 1) (body ++ ":end" :: rest) false true w acc st =
          evalLoop f rest false false w []
            { st with funcs := (w, acc ++ body) :: st.funcs })
    ∧ (∀ (F : List (String × List String)) (w : String) (b : List String),
        lookupFn ((w, b) :: F) w = some b)
    ∧ evaluate 50
        [":d", "dup", "cat", ":end", ":q", "d", "d", ":end", "3", "q",
         ":d", "dup", ":end", "3", "q"] { stack := [], funcs := [], errs := [] } =
      ERes.ok { stack := [[Element.num 3], [Element.num 3], [Element.num 3],
                          [Element.num 3, Element.num 3, Element.num 3, Element.num 3]],
                funcs := [("d", ["dup"]), ("q", ["d", "d"]), ("d", ["dup", "cat"])],
                errs := [] } := by
  refine ⟨?_, ?_, ?_, ?_⟩
  · intro f w body rest isFB fn fb st hlook hfront
    have hdump : ¬ (w = ":dump") := fun h => hfront (by rw [h]; decide)
    simp only [evalLoop]
    rw [if_neg hdump,
      if_neg (show ¬ (isFB = false ∧ True ∧ 1 < w.length ∧ w.front = ':') from
        fun hc => hfront hc.2.2.2),
      if_neg (show ¬ ((false : Bool) = true) by simp), hlook]
  · intro f w body
    induction body with
    | nil =>
      intro rest acc st _
      simp only [List.nil_append, List.length_nil, Nat.add_zero]
      simp [evalLoop]
    | cons t ts ih =>
      intro rest acc st hb
      have hfuel : f + (t :: ts).length + 1 = (f + ts.length + 1) + 1 := by
        simp [List.length_cons]
        omega
      rw [hfuel, List.cons_append]
      have h1 := (hb t (by simp)).1
      have h2 := (hb t (by simp)).2
      simp only [evalLoop]
      rw [if_neg h1,
        if_neg (show ¬ (True ∧ (true : Bool) = false ∧ 1 < t.length ∧ t.front = ':') from
          fun hc => absurd hc.2.1 (by simp)),
        if_pos trivial,
        if_neg h2]
      rw [ih rest (acc ++ [t]) st (fun t2 ht2 => hb t2 (by simp [ht2]))]
      simp [List.append_assoc]
  · intro F w b
    simp [lookupFn]
  · rfl

/-- Witness for C9's invocation equation at a concrete dictionary: calling
`q` with stored body `[dup]` evaluates exactly that stored body against the
current state. -/
theorem C9_late_binding_witness :
    evalLoop 4 ["q"] false false "" []
      { stack := [[Element.num 7]], funcs := [("q", ["dup"])], errs := [] } =
      (match evalLoop 3 ["dup"] true false "" []
          { stack := [[Element.num 7]], funcs := [("q", ["dup"])], errs := [] } with
       | ERes.ok st2 => evalLoop 3 [] false false "" [] st2
       | r => r) :=
  C9_late_binding.1 3 "q" ["dup"] [] false "" []
    { stack := [[Element.num 7]], funcs := [("q", ["dup"])], errs := [] } rfl (by decide)

end Sic
